import Mathlib

/-!
Verification of the `bulk` command batcher (`src/main.cpp`).

The program reads lines from standard input, groups them into batches
("bulks") using a fixed-size threshold and `{` / `}` block delimiters
(class `Parser`), and fans every completed batch out to asynchronous
sinks (`ScreenWritter` with one `Worker`, `FileWriter` with a
round-robin pool of `Worker`s).  This file gives a shallow embedding of
those components and proves the spec's claims about them.
-/

/-- `using Bulk = std::list<std::string>;` — a batch of command lines. -/
abbrev Bulk := List String

namespace Parser

/-- `enum class ParsingState { TopLevel = 0, InBlock = 1 };` -/
inductive ParsingState where
  | TopLevel
  | InBlock
deriving DecidableEq, Repr

/-- The observable state of a `Parser`: the configured threshold
`m_bulkSize` (a C++ `int`), the three counters, and — standing in for
the subscriber callbacks of `publish` — the ordered list of batches
handed to the subscribers so far. -/
structure St where
  bulkSize : Int
  lineCount : Nat
  commandCount : Nat
  blockCount : Nat
  published : List Bulk
deriving DecidableEq, Repr

/-- The `Parser(int bulkSize)` constructor: all counters start at 0. -/
def initSt (bulkSize : Int) : St :=
  { bulkSize := bulkSize, lineCount := 0, commandCount := 0,
    blockCount := 0, published := [] }

/-- The value of the C++ `int` `m_bulkSize` after implicit conversion to
`std::size_t`, as performed by the comparison
`commands.size() == m_bulkSize` (a 64-bit unsigned type). -/
def sizeTOfInt (b : Int) : Nat :=
  (b % (2 ^ 64 : Int)).toNat

/-- `Parser::publish(Bulk&)`: an empty batch is a no-op; otherwise the
counters grow, every subscriber receives the batch, and the batch is
cleared.  Returns the (possibly cleared) pending batch together with
the new parser state. -/
def publish (commands : Bulk) (st : St) : Bulk × St :=
  if commands.length = 0 then
    (commands, st)
  else
    ([], { st with
             commandCount := st.commandCount + commands.length,
             blockCount := st.blockCount + 1,
             published := st.published ++ [commands] })

/-- One iteration of the `for(std::string line; ...)` loop body of
`Parser::exec`: consumes `line`, updating the state-machine state, the
pending batch, the nesting depth and the parser state. -/
def execLine (line : String) (state : ParsingState) (commands : Bulk)
    (depth : Int) (st : St) : ParsingState × Bulk × Int × St :=
  let st := { st with lineCount := st.lineCount + 1 }
  match state with
  | .TopLevel =>
    if line ≠ "\x7b" then
      let commands := commands ++ [line]
      if commands.length = sizeTOfInt st.bulkSize then
        let p := publish commands st
        (.TopLevel, p.1, depth, p.2)
      else
        (.TopLevel, commands, depth, st)
    else
      let p := publish commands st
      (.InBlock, p.1, depth + 1, p.2)
  | .InBlock =>
    if line ≠ "\x7d" then
      if line = "\x7b" then
        (.InBlock, commands, depth + 1, st)
      else
        (.InBlock, commands ++ [line], depth, st)
    else
      let depth := depth - 1
      if depth = 0 then
        let p := publish commands st
        (.TopLevel, p.1, depth, p.2)
      else
        (.InBlock, commands, depth, st)

/-- The whole `getline` loop of `Parser::exec`, run over a list of
input lines. -/
def execLoop (lines : List String) (state : ParsingState) (commands : Bulk)
    (depth : Int) (st : St) : ParsingState × Bulk × Int × St :=
  match lines with
  | [] => (state, commands, depth, st)
  | l :: rest =>
    let r := execLine l state commands depth st
    execLoop rest r.1 r.2.1 r.2.2.1 r.2.2.2

/-- `Parser::exec()` on a given input stream: run the loop from the
initial state, then publish the pending batch iff the machine ended in
`TopLevel`. -/
def exec (bulkSize : Int) (lines : List String) : St :=
  let r := execLoop lines .TopLevel [] 0 (initSt bulkSize)
  if r.1 = .TopLevel then (publish r.2.1 r.2.2.2).2 else r.2.2.2

/-- Sum of the sizes of all published batches. -/
def sumSizes (published : List Bulk) : Nat :=
  (published.map List.length).sum

/-- The spec's "never" degradation alternative: one loop iteration of a
parser whose size-threshold rule never fires, so batches are published
only when a block opens and when a block closes at depth 0.  Used to
compare against `execLine` for non-positive thresholds. -/
def execLineNever (line : String) (state : ParsingState) (commands : Bulk)
    (depth : Int) (st : St) : ParsingState × Bulk × Int × St :=
  let st := { st with lineCount := st.lineCount + 1 }
  match state with
  | .TopLevel =>
    if line ≠ "\x7b" then
      (.TopLevel, commands ++ [line], depth, st)
    else
      let p := publish commands st
      (.InBlock, p.1, depth + 1, p.2)
  | .InBlock =>
    if line ≠ "\x7d" then
      if line = "\x7b" then
        (.InBlock, commands, depth + 1, st)
      else
        (.InBlock, commands ++ [line], depth, st)
    else
      let depth := depth - 1
      if depth = 0 then
        let p := publish commands st
        (.TopLevel, p.1, depth, p.2)
      else
        (.InBlock, commands, depth, st)

/-- The loop of the threshold-never-fires parser. -/
def execLoopNever (lines : List String) (state : ParsingState) (commands : Bulk)
    (depth : Int) (st : St) : ParsingState × Bulk × Int × St :=
  match lines with
  | [] => (state, commands, depth, st)
  | l :: rest =>
    let r := execLineNever l state commands depth st
    execLoopNever rest r.1 r.2.1 r.2.2.1 r.2.2.2

/-- `exec` of the threshold-never-fires parser: publish at end of input
only from `TopLevel`. -/
def execNever (bulkSize : Int) (lines : List String) : St :=
  let r := execLoopNever lines .TopLevel [] 0 (initSt bulkSize)
  if r.1 = .TopLevel then (publish r.2.1 r.2.2.2).2 else r.2.2.2

end Parser

namespace Worker

/-- What the `Worker`'s background thread is doing: blocked in the
condition wait (`Waiting`), running the handler over a privately taken
`local_queue` outside the lock (`Processing`), or returned from the
lambda (`Done`). -/
inductive Phase where
  | Waiting
  | Processing (localQueue : List Bulk)
  | Done
deriving DecidableEq, Repr

/-- The shared state of one `Worker` together with the submission
history.  `queue` is `m_queue`, `running` is `m_running`, `phase` is
the background thread's control point.  `stopCalled` records whether
`stop()` has run (the claim quantifies over batches pushed before
that); `pushed` and `processed` record, in order, the batches handed to
`push_back` and the batches the handler `m_workFunction` has been
invoked on. -/
structure WState where
  queue : List Bulk
  running : Bool
  stopCalled : Bool
  phase : Phase
  pushed : List Bulk
  processed : List Bulk
deriving DecidableEq, Repr

/-- State right after the constructor ran `start()`: running, thread
parked in the wait, nothing queued or processed. -/
def init : WState :=
  { queue := [], running := true, stopCalled := false,
    phase := .Waiting, pushed := [], processed := [] }

/-- One atomic step of the interleaved execution of a `Worker` and its
client.  Each constructor corresponds to one lock-protected critical
section of `src/main.cpp` (`push_back`, the flag flip in `stop`, the
two outcomes of the condition wait) or to one handler invocation on the
privately owned `local_queue` outside the lock. -/
inductive Step : WState → WState → Prop where
  | push (s : WState) (b : Bulk) (h : s.stopCalled = false) :
      Step s { s with queue := s.queue ++ [b], pushed := s.pushed ++ [b] }
  | stop (s : WState) :
      Step s { s with running := false, stopCalled := true }
  | wakeStop (s : WState) (hph : s.phase = .Waiting) (hrun : s.running = false) :
      Step s { s with processed := s.processed ++ s.queue, queue := [],
                      phase := .Done }
  | wakeTake (s : WState) (hph : s.phase = .Waiting) (hrun : s.running = true)
      (hq : s.queue ≠ []) :
      Step s { s with phase := .Processing s.queue, queue := [] }
  | processOne (s : WState) (b : Bulk) (rest : List Bulk)
      (hph : s.phase = .Processing (b :: rest)) :
      Step s { s with processed := s.processed ++ [b], phase := .Processing rest }
  | processDone (s : WState) (hph : s.phase = .Processing []) :
      Step s { s with phase := .Waiting }

/-- States reachable from `init` by interleaved client/worker steps. -/
inductive Reachable : WState → Prop where
  | refl : Reachable init
  | tail {s t : WState} (hs : Reachable s) (st : Step s t) : Reachable t

/-- The batches sitting in the background thread's private
`local_queue`, if any. -/
def Phase.localPending : Phase → List Bulk
  | .Waiting => []
  | .Processing l => l
  | .Done => []

end Worker

namespace IBulker

/-- One of the two `std::map<Worker*, int>` statistics maps of
`IBulker`, as an association list from worker identity (pool index) to
count; insertion order mirrors first contact, which is all the claims
inspect. -/
abbrev Stats := List (Nat × Nat)

/-- `m.find(w) != m.end()`: the map has an entry for worker `w`. -/
def containsKey (m : Stats) (w : Nat) : Bool :=
  m.any fun p => p.1 == w

/-- `IBulker::initStats(Worker*)` on one map: insert a zero entry for
`w` unless one is already present. -/
def initStats (m : Stats) (w : Nat) : Stats :=
  if containsKey m w then m else m ++ [(w, 0)]

/-- `m[w] += k` on a map where `w` is known to be present (called only
after `initStats`). -/
def addStat (m : Stats) (w : Nat) (k : Nat) : Stats :=
  m.map fun p => if p.1 = w then (p.1, p.2 + k) else p

/-- `IBulker::calcStats(Worker*, Bulk)` on one map: ensure the entry
exists, then add `k` to it (`k = 1` for the block map, `k =
commands.size()` for the command map). -/
def calcStats (m : Stats) (w : Nat) (k : Nat) : Stats :=
  addStat (initStats m w) w k

end IBulker

namespace ScreenWritter

/-- Observable state of a `ScreenWritter`: its single worker is
identified by key `0`; `submitted` records the batches handed to the
worker in order. -/
structure St where
  blockCount : IBulker.Stats
  commandCount : IBulker.Stats
  submitted : List Bulk
deriving DecidableEq, Repr

/-- `ScreenWritter()`: empty statistics, nothing submitted. -/
def init : St :=
  { blockCount := [], commandCount := [], submitted := [] }

/-- `ScreenWritter::push_back(Bulk)`: forward to the single worker,
then `calcStats(&m_worker, commands)`. -/
def push_back (commands : Bulk) (s : St) : St :=
  { s with submitted := s.submitted ++ [commands],
           blockCount := IBulker.calcStats s.blockCount 0 1,
           commandCount := IBulker.calcStats s.commandCount 0 commands.length }

/-- `ScreenWritter::stop()`: `m_worker.stop();` — the statistics maps
are not touched. -/
def stop (s : St) : St := s

end ScreenWritter

namespace FileWriter

/-- Observable state of a `FileWriter`: `n` is the pool size
`m_workers.size()` fixed at construction, `roundRobin` is
`m_roundRobin`, and `assigned` records which worker index received each
submitted batch, in submission order. -/
structure St where
  n : Nat
  roundRobin : Nat
  blockCount : IBulker.Stats
  commandCount : IBulker.Stats
  assigned : List Nat
deriving DecidableEq, Repr

/-- `FileWriter(int wrkCount)`: pool of `wrkCount` workers,
`m_roundRobin = 0`, empty statistics. -/
def init (wrkCount : Nat) : St :=
  { n := wrkCount, roundRobin := 0, blockCount := [], commandCount := [],
    assigned := [] }

/-- `FileWriter::push_back(Bulk)`: submit to worker `m_roundRobin`,
update its statistics, then advance `m_roundRobin` cyclically. -/
def push_back (commands : Bulk) (s : St) : St :=
  let w := s.roundRobin
  let rr := s.roundRobin + 1
  { s with assigned := s.assigned ++ [w],
           blockCount := IBulker.calcStats s.blockCount w 1,
           commandCount := IBulker.calcStats s.commandCount w commands.length,
           roundRobin := if rr = s.n then 0 else rr }

/-- Submit a sequence of batches through `push_back` in order. -/
def run (s : St) (batches : List Bulk) : St :=
  batches.foldl (fun s b => push_back b s) s

/-- `FileWriter::stop()`: for every worker of the pool, in index order,
`initStats` then stop the worker (only the statistics effect is
observable here). -/
def stop (s : St) : St :=
  { s with
      blockCount := (List.range s.n).foldl IBulker.initStats s.blockCount,
      commandCount := (List.range s.n).foldl IBulker.initStats s.commandCount }

end FileWriter

namespace Parser

/-- Number of non-empty lines of an input stream (the quantity §8 of the
spec states `blockCount` in terms of). -/
def nonEmptyLineCount (lines : List String) : Nat :=
  (lines.filter (fun l => l ≠ "")).length

/-- `⌈n / t⌉` on naturals, as the spec's `ceil(count / threshold)`. -/
def ceilDiv (n t : Nat) : Nat :=
  (n + t - 1) / t

end Parser

namespace Worker

/-- The state at the end of the concrete run
push `["cmd"]` → stop → final drain: used to witness the shutdown
theorem. -/
def sampleFinal : WState :=
  { queue := [], running := false, stopCalled := true, phase := .Done,
    pushed := [["cmd"]], processed := [["cmd"]] }

end Worker

namespace Parser

/-- `publish` preserves "commandCount is the sum of published sizes". -/
theorem publish_commandCount (commands : Bulk) (st : St)
    (h : st.commandCount = sumSizes st.published) :
    (publish commands st).2.commandCount = sumSizes (publish commands st).2.published := by
  unfold publish
  split
  · exact h
  · simp [sumSizes, h]

/-- `execLine` preserves "commandCount is the sum of published sizes". -/
theorem execLine_commandCount (line : String) (state : ParsingState)
    (commands : Bulk) (depth : Int) (st : St)
    (h : st.commandCount = sumSizes st.published) :
    (execLine line state commands depth st).2.2.2.commandCount
      = sumSizes (execLine line state commands depth st).2.2.2.published := by
  have h' : St.commandCount { st with lineCount := st.lineCount + 1 }
      = sumSizes (St.published { st with lineCount := st.lineCount + 1 }) := h
  unfold execLine
  cases state <;> dsimp only <;> split_ifs <;>
    first
      | exact h'
      | exact publish_commandCount _ _ h'

/-- `execLoop` preserves "commandCount is the sum of published sizes". -/
theorem execLoop_commandCount (lines : List String) (state : ParsingState)
    (commands : Bulk) (depth : Int) (st : St)
    (h : st.commandCount = sumSizes st.published) :
    (execLoop lines state commands depth st).2.2.2.commandCount
      = sumSizes (execLoop lines state commands depth st).2.2.2.published := by
  induction lines generalizing state commands depth st with
  | nil => exact h
  | cons l rest ih =>
    exact ih _ _ _ _ (execLine_commandCount l state commands depth st h)

/-- `publish` keeps every published batch nonempty. -/
theorem publish_nonempty (commands : Bulk) (st : St)
    (h : ∀ b ∈ st.published, b ≠ []) :
    ∀ b ∈ (publish commands st).2.published, b ≠ [] := by
  unfold publish
  split
  · exact h
  · rename_i hne
    intro b hb
    simp only [List.mem_append, List.mem_singleton] at hb
    rcases hb with hb | hb
    · exact h b hb
    · subst hb
      intro hnil
      simp [hnil] at hne

/-- `execLine` keeps every published batch nonempty. -/
theorem execLine_nonempty (line : String) (state : ParsingState)
    (commands : Bulk) (depth : Int) (st : St)
    (h : ∀ b ∈ st.published, b ≠ []) :
    ∀ b ∈ (execLine line state commands depth st).2.2.2.published, b ≠ [] := by
  have h' : ∀ b ∈ St.published { st with lineCount := st.lineCount + 1 }, b ≠ [] := h
  unfold execLine
  cases state <;> dsimp only <;> split_ifs <;>
    first
      | exact h'
      | exact publish_nonempty _ _ h'

/-- `execLoop` keeps every published batch nonempty. -/
theorem execLoop_nonempty (lines : List String) (state : ParsingState)
    (commands : Bulk) (depth : Int) (st : St)
    (h : ∀ b ∈ st.published, b ≠ []) :
    ∀ b ∈ (execLoop lines state commands depth st).2.2.2.published, b ≠ [] := by
  induction lines generalizing state commands depth st with
  | nil => exact h
  | cons l rest ih =>
    exact ih _ _ _ _ (execLine_nonempty l state commands depth st h)

end Parser

namespace Worker

/-- The shutdown invariant: the batches already handed to the handler,
the ones in the background thread's private `local_queue` and the ones
still in `m_queue` are, in order, exactly the pushed batches; a stopped
`running` flag means `stop()` ran; and once the thread has returned
(`Done`) the queue is empty and `stop()` has run. -/
def WInv (s : WState) : Prop :=
  s.processed ++ s.phase.localPending ++ s.queue = s.pushed
    ∧ (s.running = false → s.stopCalled = true)
    ∧ (s.phase = .Done → s.queue = [] ∧ s.stopCalled = true)

theorem wInv_init : WInv init := by
  refine ⟨rfl, ?_, ?_⟩
  · intro h
    cases h
  · intro h
    cases h

theorem wInv_step {s t : WState} (hs : WInv s) (st : Step s t) : WInv t := by
  obtain ⟨hlist, hflag, hdone⟩ := hs
  cases st with
  | push b h =>
    refine ⟨?_, hflag, ?_⟩
    · simp only [← hlist]
      simp [List.append_assoc]
    · intro hph
      have hstop := (hdone hph).2
      rw [h] at hstop
      cases hstop
  | stop =>
    refine ⟨hlist, fun _ => rfl, ?_⟩
    · intro hph
      exact ⟨(hdone hph).1, rfl⟩
  | wakeStop hph hrun =>
    refine ⟨?_, hflag, fun _ => ⟨rfl, hflag hrun⟩⟩
    · rw [hph] at hlist
      simp only [Phase.localPending] at hlist ⊢
      simpa using hlist
  | wakeTake hph hrun hq =>
    refine ⟨?_, hflag, ?_⟩
    · rw [hph] at hlist
      simp only [Phase.localPending] at hlist ⊢
      simpa using hlist
    · intro hcontra
      cases hcontra
  | processOne b rest hph =>
    refine ⟨?_, hflag, ?_⟩
    · rw [hph] at hlist
      simp only [Phase.localPending] at hlist ⊢
      simpa [List.append_assoc] using hlist
    · intro hcontra
      cases hcontra
  | processDone hph =>
    refine ⟨?_, hflag, ?_⟩
    · rw [hph] at hlist
      simpa [Phase.localPending] using hlist
    · intro hcontra
      cases hcontra

theorem wInv_reachable {s : WState} (hs : Reachable s) : WInv s := by
  induction hs with
  | refl => exact wInv_init
  | tail _ st ih => exact wInv_step ih st

/-- C1: in every reachable interleaving of `push_back`, `stop` and the
background loop, once the background thread has exited (which is what
`stop()`'s join waits for), the handler has been invoked on exactly the
batches pushed before `stop()`, in order — every batch is processed,
none twice, even when a push races with the stop signal. -/
theorem stop_drains_all_pushed (s : WState) (hs : Reachable s)
    (hdone : s.phase = .Done) : s.processed = s.pushed := by
  obtain ⟨hlist, _, hdone'⟩ := wInv_reachable hs
  rw [hdone] at hlist
  rw [(hdone' hdone).1] at hlist
  simpa [Phase.localPending] using hlist

/-- Witness for C1: the concrete run push `["cmd"]` → `stop()` → final
drain reaches `sampleFinal`, where the theorem yields
`processed = pushed`. -/
theorem stop_drains_all_pushed_witness :
    Reachable sampleFinal ∧ sampleFinal.processed = sampleFinal.pushed := by
  have h1 : Reachable sampleFinal :=
    Reachable.tail
      (Reachable.tail
        (Reachable.tail Reachable.refl (Step.push init ["cmd"] rfl))
        (Step.stop _))
      (Step.wakeStop _ rfl rfl)
  exact ⟨h1, stop_drains_all_pushed sampleFinal h1 rfl⟩

end Worker

namespace Parser

/-- C2: for every input stream (and every configured threshold), the
Parser's `commandCount` after `exec()` returns equals the sum of the
sizes of all batches it published, each batch's size counted exactly
once at publication time. -/
theorem exec_commandCount_eq_sumSizes (bulkSize : Int) (lines : List String) :
    (exec bulkSize lines).commandCount
      = sumSizes (exec bulkSize lines).published := by
  have h0 : (initSt bulkSize).commandCount
      = sumSizes (initSt bulkSize).published := rfl
  have h1 := execLoop_commandCount lines .TopLevel [] 0 (initSt bulkSize) h0
  unfold exec
  dsimp only
  split
  · exact publish_commandCount _ _ h1
  · exact h1

/-- C3: with open marker `{` and close marker `}`, the input
`{ a b { c } d }` (one token per line) makes the Parser publish exactly
one batch `[a, b, c, d]`, whatever the configured threshold: nested
delimiter lines only move the depth counter and are never appended, and
the batch goes out exactly when the depth counter returns to 0. -/
theorem exec_nested_block_single_batch (bulkSize : Int) :
    (exec bulkSize ["\x7b", "a", "b", "\x7b", "c", "\x7d", "d", "\x7d"]).published
        = [["a", "b", "c", "d"]]
      ∧ (exec bulkSize ["\x7b", "a", "b", "\x7b", "c", "\x7d", "d", "\x7d"]).blockCount = 1 :=
  ⟨rfl, rfl⟩

/-- C4: with threshold 3 and input lines `[a, b, c, d, e]` (no block
delimiters), the Parser publishes exactly two batches in order:
`[a, b, c]` on reaching the threshold and then `[d, e]` at end of
input, because the stream ends in `TopLevel`. -/
theorem exec_threshold_edge :
    (exec 3 ["a", "b", "c", "d", "e"]).published
      = [["a", "b", "c"], ["d", "e"]] := by
  decide

/-- C5: if the input ends while the Parser is in the `InBlock` state,
`exec` returns the loop's state unchanged — the pending accumulated
lines are not published: no batch, no counter change, no subscriber
invocation beyond what the loop itself already did. -/
theorem exec_unterminated_block_discards (bulkSize : Int) (lines : List String)
    (h : (execLoop lines .TopLevel [] 0 (initSt bulkSize)).1 = .InBlock) :
    exec bulkSize lines = (execLoop lines .TopLevel [] 0 (initSt bulkSize)).2.2.2 := by
  unfold exec
  dsimp only
  rw [if_neg]
  rw [h]
  intro hcontra
  cases hcontra

/-- Witness for C5 at the concrete unterminated input `{ a b`. -/
theorem exec_unterminated_block_discards_witness :
    (execLoop ["\x7b", "a", "b"] .TopLevel [] 0 (initSt 5)).1 = .InBlock
      ∧ exec 5 ["\x7b", "a", "b"]
        = (execLoop ["\x7b", "a", "b"] .TopLevel [] 0 (initSt 5)).2.2.2 :=
  ⟨by decide, exec_unterminated_block_discards 5 ["\x7b", "a", "b"] (by decide)⟩

/-- C6: `publish` on an empty pending batch is a no-op in every parser
state — counters unchanged, no subscriber invoked — and consequently
no batch the Parser ever publishes is empty. -/
theorem publish_empty_noop_and_no_empty_published :
    (∀ st : St, publish [] st = ([], st))
      ∧ ∀ (bulkSize : Int) (lines : List String) (bulk : Bulk),
          bulk ∈ (exec bulkSize lines).published → bulk ≠ [] := by
  constructor
  · intro st
    rfl
  · intro bulkSize lines bulk hmem
    have h0 : ∀ b ∈ (initSt bulkSize).published, b ≠ [] := by
      intro b hb
      cases hb
    have h1 := execLoop_nonempty lines .TopLevel [] 0 (initSt bulkSize) h0
    revert hmem
    unfold exec
    dsimp only
    split
    · exact publish_nonempty _ _ h1 bulk
    · exact h1 bulk

/-- Witness for C6 at a concrete published batch. -/
theorem publish_empty_noop_witness :
    (["a"] : Bulk) ∈ (exec 1 ["a"]).published ∧ (["a"] : Bulk) ≠ [] :=
  ⟨by decide, publish_empty_noop_and_no_empty_published.2 1 ["a"] ["a"] (by decide)⟩

end Parser

namespace IBulker

/-- `initStats m w` makes the entry for `w` present. -/
theorem containsKey_initStats_self (m : Stats) (w : Nat) :
    containsKey (initStats m w) w = true := by
  unfold initStats
  split
  · assumption
  · simp [containsKey, List.any_append]

/-- `initStats` never removes an entry. -/
theorem containsKey_initStats_mono (m : Stats) (w w' : Nat)
    (h : containsKey m w = true) : containsKey (initStats m w') w = true := by
  unfold initStats
  split
  · exact h
  · simp only [containsKey, List.any_append] at h ⊢
    simp [h]

/-- Folding `initStats` over a worker list never removes an entry. -/
theorem containsKey_foldl_initStats_mono (l : List Nat) (m : Stats) (w : Nat)
    (h : containsKey m w = true) :
    containsKey (l.foldl initStats m) w = true := by
  induction l generalizing m with
  | nil => exact h
  | cons a l ih => exact ih _ (containsKey_initStats_mono m w a h)

/-- Folding `initStats` over a worker list creates an entry for every
worker in the list. -/
theorem containsKey_foldl_initStats (l : List Nat) (m : Stats) (w : Nat)
    (h : w ∈ l) : containsKey (l.foldl initStats m) w = true := by
  induction l generalizing m with
  | nil => cases h
  | cons a l ih =>
    rcases List.mem_cons.mp h with rfl | hmem
    · exact containsKey_foldl_initStats_mono l _ w (containsKey_initStats_self m w)
    · exact ih _ hmem

/-- `addStat` only changes counts, never the key set. -/
theorem containsKey_addStat (m : Stats) (w' k w : Nat) :
    containsKey (addStat m w' k) w = containsKey m w := by
  induction m with
  | nil => rfl
  | cons p m ih =>
    simp only [containsKey, addStat, List.map_cons, List.any_cons] at ih ⊢
    rw [ih]
    congr 1
    split <;> rfl

/-- `calcStats` makes the entry for `w` present. -/
theorem containsKey_calcStats_self (m : Stats) (w k : Nat) :
    containsKey (calcStats m w k) w = true := by
  unfold calcStats
  rw [containsKey_addStat]
  exact containsKey_initStats_self m w

end IBulker

namespace FileWriter

/-- `push_back` advances `m_roundRobin` exactly like `(k + 1) % N`. -/
theorem run_assigned (N : Nat) (hN : 0 < N) (batches : List Bulk) :
    ∀ (k : Nat) (s : St), s.n = N → s.roundRobin = k % N →
      s.assigned = (List.range k).map (fun i => i % N) →
      (run s batches).assigned
        = (List.range (k + batches.length)).map (fun i => i % N) := by
  induction batches with
  | nil =>
    intro k s _ _ ha
    simpa using ha
  | cons b rest ih =>
    intro k s hn hrr ha
    have hn' : (push_back b s).n = N := hn
    have hrr' : (push_back b s).roundRobin = (k + 1) % N := by
      simp only [push_back, hrr, hn]
      by_cases hcase : k % N + 1 = N
      · rw [if_pos hcase, ← Nat.mod_add_mod, hcase, Nat.mod_self]
      · have hlt : k % N < N := Nat.mod_lt _ hN
        rw [if_neg hcase, ← Nat.mod_add_mod,
          Nat.mod_eq_of_lt (lt_of_le_of_ne (Nat.succ_le_of_lt hlt) hcase)]
    have ha' : (push_back b s).assigned
        = (List.range (k + 1)).map (fun i => i % N) := by
      simp [push_back, ha, hrr, List.range_succ]
    have hres := ih (k + 1) (push_back b s) hn' hrr' ha'
    have hlen : k + (b :: rest).length = (k + 1) + rest.length := by
      simp [Nat.add_comm, Nat.add_assoc, Nat.add_left_comm]
    rw [hlen]
    exact hres

end FileWriter

/-- C7: the File sink with a pool of `N > 0` workers routes the `i`-th
submitted batch to worker `i % N`, and every chosen index is below the
pool size. -/
theorem fileWriter_roundRobin_assignment (N : Nat) (batches : List Bulk)
    (hN : 0 < N) :
    (FileWriter.run (FileWriter.init N) batches).assigned
        = (List.range batches.length).map (fun i => i % N)
      ∧ ∀ i ∈ (FileWriter.run (FileWriter.init N) batches).assigned, i < N := by
  have h := FileWriter.run_assigned N hN batches 0 (FileWriter.init N) rfl
    (Nat.zero_mod N).symm rfl
  rw [Nat.zero_add] at h
  refine ⟨h, ?_⟩
  intro i hi
  rw [h] at hi
  obtain ⟨j, _, rfl⟩ := List.mem_map.mp hi
  exact Nat.mod_lt _ hN

/-- Witness for C7: 2 workers, 5 sequential batches, chosen workers
`0, 1, 0, 1, 0`. -/
theorem fileWriter_roundRobin_assignment_witness :
    (FileWriter.run (FileWriter.init 2)
        [["a"], ["b"], ["c"], ["d"], ["e"]]).assigned = [0, 1, 0, 1, 0] :=
  ((fileWriter_roundRobin_assignment 2 [["a"], ["b"], ["c"], ["d"], ["e"]]
    (by decide)).1).trans (by decide)

/-- C8 counterexample: a `ScreenWritter` whose worker never received a
batch has no statistics entry at all for that worker after `stop()`
returns — `ScreenWritter::stop` only stops the worker and initializes
nothing, so the claim fails for the Screen sink. -/
theorem screenWritter_stop_missing_idle_entry :
    IBulker.containsKey (ScreenWritter.stop ScreenWritter.init).blockCount 0 = false
      ∧ IBulker.containsKey
        (ScreenWritter.stop ScreenWritter.init).commandCount 0 = false := by
  decide

/-- C8 amended: after `stop()` the File sink's statistics maps contain
an entry (zero for idle workers) for every worker of its pool; the
Screen sink's `stop()` leaves its maps untouched, so its single worker
has an entry exactly when at least one batch was pushed — any
`push_back` creates it. -/
theorem sinks_stop_stats_coverage :
    (∀ (s : FileWriter.St) (w : Nat), w < s.n →
        IBulker.containsKey (FileWriter.stop s).blockCount w = true
          ∧ IBulker.containsKey (FileWriter.stop s).commandCount w = true)
      ∧ ∀ (s : ScreenWritter.St) (commands : Bulk),
          IBulker.containsKey
              (ScreenWritter.stop (ScreenWritter.push_back commands s)).blockCount 0
            = true
          ∧ IBulker.containsKey
              (ScreenWritter.stop (ScreenWritter.push_back commands s)).commandCount 0
            = true := by
  constructor
  · intro s w hw
    have hmem : w ∈ List.range s.n := List.mem_range.mpr hw
    exact ⟨IBulker.containsKey_foldl_initStats _ _ _ hmem,
      IBulker.containsKey_foldl_initStats _ _ _ hmem⟩
  · intro s commands
    exact ⟨IBulker.containsKey_calcStats_self _ _ _,
      IBulker.containsKey_calcStats_self _ _ _⟩

/-- Witness for the amended C8 at a 2-worker File sink and a Screen
sink that received one batch. -/
theorem sinks_stop_stats_coverage_witness :
    IBulker.containsKey (FileWriter.stop (FileWriter.init 2)).blockCount 1 = true
      ∧ IBulker.containsKey
        (ScreenWritter.stop
          (ScreenWritter.push_back ["x"] ScreenWritter.init)).blockCount 0 = true :=
  ⟨(sinks_stop_stats_coverage.1 (FileWriter.init 2) 1 (by decide)).1,
   (sinks_stop_stats_coverage.2 ScreenWritter.init ["x"]).1⟩

namespace Parser

/-- For an `int` threshold in `(0, 2^31)`, the `size_t` conversion is
the identity. -/
theorem sizeTOfInt_of_pos (T : Int) (h0 : 0 < T) (h1 : T < 2 ^ 31) :
    sizeTOfInt T = T.toNat := by
  unfold sizeTOfInt
  omega

/-- For a non-positive `int` threshold, the converted `size_t` value is
0 or at least `2^63`, so no pending size in `[1, 2^63)` ever equals
it. -/
theorem sizeTOfInt_nonpos_ne (b : Int) (hb0 : b ≤ 0) (hbr : -(2 ^ 31) ≤ b)
    (k : Nat) (h1 : 1 ≤ k) (h2 : k < 2 ^ 63) : k ≠ sizeTOfInt b := by
  unfold sizeTOfInt
  omega

/-- `ceilDiv` agrees with "floor quotient plus one unless the division
is exact". -/
theorem ceilDiv_eq (n t : Nat) (ht : 0 < t) :
    ceilDiv n t = n / t + (if n % t = 0 then 0 else 1) := by
  unfold ceilDiv
  rcases Nat.eq_zero_or_pos (n % t) with h | h
  · rw [if_pos h]
    have key : (n + t - 1) / t = n / t := by
      conv_lhs => rw [← Nat.div_add_mod n t, h, Nat.add_zero]
      rw [show t * (n / t) + t - 1 = t * (n / t) + (t - 1) by omega,
        Nat.mul_add_div ht,
        Nat.div_eq_of_lt (show t - 1 < t by omega), Nat.add_zero]
    rw [key, Nat.add_zero]
  · rw [if_neg (by omega)]
    have hmlt : n % t < t := Nat.mod_lt _ ht
    have key : (n + t - 1) / t = n / t + 1 := by
      conv_lhs => rw [← Nat.div_add_mod n t]
      rw [show t * (n / t) + n % t + t - 1 = t * (n / t) + (n % t - 1 + t) by omega,
        Nat.mul_add_div ht, Nat.add_div_right _ ht,
        Nat.div_eq_of_lt (show n % t - 1 < t by omega), Nat.zero_add]
    rw [key]

/-- `execLine` on a non-`{` line in `TopLevel`: append the line, then
either flush at the threshold or keep accumulating. -/
theorem execLine_noDelim (l : String) (hl : l ≠ "\x7b") (commands : Bulk)
    (depth : Int) (st : St) :
    execLine l .TopLevel commands depth st
      = if commands.length + 1 = sizeTOfInt st.bulkSize
          then (.TopLevel, [], depth,
                { st with
                    lineCount := st.lineCount + 1,
                    commandCount := st.commandCount + (commands.length + 1),
                    blockCount := st.blockCount + 1,
                    published := st.published ++ [commands ++ [l]] })
          else (.TopLevel, commands ++ [l], depth,
                { st with lineCount := st.lineCount + 1 }) := by
  unfold execLine
  dsimp only
  rw [if_pos hl]
  have hlen : (commands ++ [l]).length = commands.length + 1 := by simp
  rw [hlen]
  split
  · unfold publish
    rw [hlen, if_neg (by omega)]
  · rfl

/-- Running the loop from `TopLevel` over delimiter-free input with a
converted threshold `T > 0`: the machine stays in `TopLevel`, the
pending size is the total line count mod `T`, and `blockCount` grows by
the floor quotient. -/
theorem execLoop_noDelim (T : Nat) (hT : 0 < T) (lines : List String)
    (hlines : ∀ l ∈ lines, l ≠ "\x7b" ∧ l ≠ "\x7d") :
    ∀ (commands : Bulk) (st : St), sizeTOfInt st.bulkSize = T →
      commands.length < T →
      (execLoop lines .TopLevel commands 0 st).1 = ParsingState.TopLevel
        ∧ (execLoop lines .TopLevel commands 0 st).2.1.length
            = (commands.length + lines.length) % T
        ∧ (execLoop lines .TopLevel commands 0 st).2.2.2.blockCount
            = st.blockCount + (commands.length + lines.length) / T := by
  induction lines with
  | nil =>
    intro commands st hsize hc
    exact ⟨rfl, by simp [execLoop, Nat.mod_eq_of_lt hc],
      by simp [execLoop, Nat.div_eq_of_lt hc]⟩
  | cons l rest ih =>
    intro commands st hsize hc
    have hl : l ≠ "\x7b" := (hlines l (by simp)).1
    have hrest : ∀ l' ∈ rest, l' ≠ "\x7b" ∧ l' ≠ "\x7d" :=
      fun l' h' => hlines l' (by simp [h'])
    simp only [execLoop]
    rw [execLine_noDelim l hl commands 0 st, hsize]
    by_cases hcase : commands.length + 1 = T
    · rw [if_pos hcase]
      dsimp only
      obtain ⟨h1, h2, h3⟩ := ih hrest []
        { st with
            lineCount := st.lineCount + 1,
            commandCount := st.commandCount + (commands.length + 1),
            blockCount := st.blockCount + 1,
            published := st.published ++ [commands ++ [l]] }
        hsize hT
      refine ⟨h1, ?_, ?_⟩
      · rw [h2]
        simp only [List.length_nil, List.length_cons, Nat.zero_add]
        rw [show commands.length + (rest.length + 1) = rest.length + T by omega,
          Nat.add_mod_right]
      · rw [h3]
        simp only [List.length_nil, List.length_cons, Nat.zero_add]
        rw [show commands.length + (rest.length + 1) = rest.length + T by omega,
          Nat.add_div_right _ hT]
        ring
    · rw [if_neg hcase]
      dsimp only
      obtain ⟨h1, h2, h3⟩ := ih hrest (commands ++ [l])
        { st with lineCount := st.lineCount + 1 } hsize
        (by simp only [List.length_append, List.length_cons, List.length_nil,
              Nat.zero_add]
            omega)
      refine ⟨h1, ?_, ?_⟩
      · rw [h2]
        simp only [List.length_append, List.length_cons, List.length_nil,
          Nat.zero_add]
        rw [show commands.length + 1 + rest.length
            = commands.length + (rest.length + 1) by omega]
      · rw [h3]
        simp only [List.length_append, List.length_cons, List.length_nil,
          Nat.zero_add]
        rw [show commands.length + 1 + rest.length
            = commands.length + (rest.length + 1) by omega]

/-- When the pending size after an append cannot equal the converted
threshold, one step of `exec`'s loop is one step of the
threshold-never-fires loop. -/
theorem execLine_eq_execLineNever (l : String) (state : ParsingState)
    (commands : Bulk) (depth : Int) (st : St)
    (hno : commands.length + 1 ≠ sizeTOfInt st.bulkSize) :
    execLine l state commands depth st = execLineNever l state commands depth st := by
  cases state
  · by_cases hbrace : l = "\x7b"
    · subst hbrace
      rfl
    · unfold execLine execLineNever
      dsimp only
      rw [if_pos hbrace, if_pos hbrace]
      have hlen : (commands ++ [l]).length = commands.length + 1 := by simp
      rw [hlen, if_neg hno]
  · rfl

/-- The never-variant loop step grows the pending batch by at most one
line. -/
theorem execLineNever_pending_le (l : String) (state : ParsingState)
    (commands : Bulk) (depth : Int) (st : St) :
    (execLineNever l state commands depth st).2.1.length ≤ commands.length + 1 := by
  unfold execLineNever publish
  cases state <;> dsimp only <;> split_ifs <;> simp

/-- The never-variant loop step leaves `m_bulkSize` alone. -/
theorem execLineNever_bulkSize (l : String) (state : ParsingState)
    (commands : Bulk) (depth : Int) (st : St) :
    (execLineNever l state commands depth st).2.2.2.bulkSize = st.bulkSize := by
  unfold execLineNever publish
  cases state <;> dsimp only <;> split_ifs <;> rfl

/-- For a non-positive threshold (within `int` range) the whole loop
agrees with the threshold-never-fires loop, as long as fewer than
`2^63` lines are consumed. -/
theorem execLoop_eq_never (b : Int) (hb0 : b ≤ 0) (hbr : -(2 ^ 31) ≤ b)
    (lines : List String) :
    ∀ (state : ParsingState) (commands : Bulk) (depth : Int) (st : St),
      st.bulkSize = b → commands.length + lines.length < 2 ^ 63 →
      execLoop lines state commands depth st
        = execLoopNever lines state commands depth st := by
  induction lines with
  | nil =>
    intro state commands depth st _ _
    rfl
  | cons l rest ih =>
    intro state commands depth st hbs hbound
    simp only [List.length_cons] at hbound
    have hne : commands.length + 1 ≠ sizeTOfInt st.bulkSize := by
      rw [hbs]
      exact sizeTOfInt_nonpos_ne b hb0 hbr _ (by omega) (by omega)
    simp only [execLoop, execLoopNever]
    rw [execLine_eq_execLineNever l state commands depth st hne]
    apply ih
    · rw [execLineNever_bulkSize]
      exact hbs
    · have hle := execLineNever_pending_le l state commands depth st
      omega

end Parser

namespace Parser

/-- C9 amended: for every delimiter-free input and every positive `int`
threshold, `blockCount` after `exec()` is the ceiling of the *total*
line count (empty lines included — the code appends them like any other
line) divided by the threshold; no empty final batch is published. -/
theorem exec_blockCount_ceil_noDelim (T : Int) (lines : List String)
    (hT0 : 0 < T) (hT1 : T < 2 ^ 31)
    (hlines : ∀ l ∈ lines, l ≠ "\x7b" ∧ l ≠ "\x7d") :
    (exec T lines).blockCount = ceilDiv lines.length T.toNat := by
  have hTn : 0 < T.toNat := by omega
  have hsize : sizeTOfInt (initSt T).bulkSize = T.toNat := sizeTOfInt_of_pos T hT0 hT1
  obtain ⟨hstate, hlen, hblock⟩ :=
    execLoop_noDelim T.toNat hTn lines hlines [] (initSt T) hsize hTn
  simp only [List.length_nil, Nat.zero_add] at hlen hblock
  unfold exec
  dsimp only
  rw [if_pos hstate]
  rw [ceilDiv_eq lines.length T.toNat hTn]
  by_cases hmod : lines.length % T.toNat = 0
  · have hnil : (execLoop lines .TopLevel [] 0 (initSt T)).2.1 = [] := by
      rw [← List.length_eq_zero]
      rw [hlen, hmod]
    rw [hnil]
    rw [show ∀ s : St, (publish [] s).2 = s from fun _ => rfl]
    rw [hblock, if_pos hmod]
    rw [show (initSt T).blockCount = 0 from rfl, Nat.zero_add, Nat.add_zero]
  · have hpos : (execLoop lines .TopLevel [] 0 (initSt T)).2.1.length ≠ 0 := by
      rw [hlen]
      exact hmod
    unfold publish
    rw [if_neg hpos]
    dsimp only
    rw [hblock, if_neg hmod]
    rw [show (initSt T).blockCount = 0 from rfl, Nat.zero_add]

/-- Witness for the amended C9: threshold 2 over three plain lines
gives `⌈3/2⌉ = 2` blocks. -/
theorem exec_blockCount_ceil_noDelim_witness :
    (exec 2 ["a", "b", "c"]).blockCount = ceilDiv 3 2 :=
  (exec_blockCount_ceil_noDelim 2 ["a", "b", "c"] (by decide) (by decide)
    (by decide)).trans (by rfl)

/-- C9 counterexample: the claim counts *non-empty* lines, but the code
appends empty lines too — with threshold 1 and the single empty line as
input, the code publishes one block while `ceil(nonEmptyLineCount /
threshold) = 0`. -/
theorem exec_blockCount_ne_ceil_nonEmpty :
    (exec 1 [""]).blockCount = 1
      ∧ ceilDiv (nonEmptyLineCount [""]) (Int.toNat 1) = 0 := by
  decide

/-- C10: for a zero or negative configured threshold (any `int` value),
the size-threshold rule never fires — `commands.size()`, at least 1
after an append and below `2^63`, can never equal the huge (or zero)
converted `size_t` threshold — so `exec` behaves exactly like the
variant that publishes only on block opens and at end of input in
`TopLevel`. -/
theorem exec_nonpos_threshold_eq_never (b : Int) (lines : List String)
    (hb0 : b ≤ 0) (hbr : -(2 ^ 31) ≤ b) (hlen : lines.length < 2 ^ 63) :
    exec b lines = execNever b lines := by
  unfold exec execNever
  rw [execLoop_eq_never b hb0 hbr lines .TopLevel [] 0 (initSt b) rfl
    (by simpa using hlen)]

/-- Witness for C10 at threshold `-1` over two lines: both runs agree
(and publish `[a, b]` only at end of input). -/
theorem exec_nonpos_threshold_eq_never_witness :
    exec (-1) ["a", "b"] = execNever (-1) ["a", "b"] :=
  exec_nonpos_threshold_eq_never (-1) ["a", "b"] (by norm_num) (by norm_num)
    (by norm_num)

end Parser
